import Mathlib

set_option maxHeartbeats 1000000

/- Verification of the dependency-graph template-resolution core
   (pkg/template/depgraph.go) and the redactor-migration helpers
   (kotsadm/pkg/redact/redact.go).

   A Go map[string]map[string]struct{} is modelled as an association list
   whose insertion is set-like (no duplicate members are created); the
   list order stands in for the (unspecified) map iteration order. -/

/-- Model of Go fmt %q applied to a string: wrap in double quotes,
escaping backslashes and double quotes (control-character escapes are not
needed by any statement below). -/
def goQuoteChar (c : Char) : String :=
  if c = '"' then "\\\"" else if c = '\\' then "\\\\" else String.singleton c

def goQuote (s : String) : String :=
  "\"" ++ String.join (s.data.map goQuoteChar) ++ "\""

/-- Model of Go strings.Join. -/
def joinSep (sep : String) : List String → String
  | [] => ""
  | [x] => x
  | x :: y :: xs => x ++ sep ++ joinSep sep (y :: xs)

/-- depGraph.Dependencies : map[string]map[string]struct{} -/
abbrev depGraph := List (String × List String)

def keysOf (g : depGraph) : List String := g.map Prod.fst

/-- depGraph.AddNode: ensure the key exists with an empty dependency set. -/
def AddNode (g : depGraph) (s : String) : depGraph :=
  if g.any (fun p => p.1 == s) then g else g ++ [(s, [])]

/-- Set-like insertion into a dependency set
(d.Dependencies[source][newDependency] = struct\x7b\x7d). -/
def addToSet (ds : List String) (d : String) : List String :=
  if ds.contains d then ds else ds ++ [d]

/-- depGraph.AddDep: AddNode the source, then insert the dependency into
its set. -/
def AddDep (g : depGraph) (s d : String) : depGraph :=
  (AddNode g s).map (fun p => if p.1 == s then (p.1, addToSet p.2 d) else p)

/-- depGraph.ResolveDep: delete the name from every dependency set, and
delete the name's own entry. -/
def ResolveDep (g : depGraph) (r : String) : depGraph :=
  (g.filter (fun p => !(p.1 == r))).map (fun p => (p.1, p.2.filter (fun d => !(d == r))))

/-- The nodes whose dependency set is empty (first loop of GetHeadNodes). -/
def heads (g : depGraph) : List String :=
  (g.filter (fun p => p.2.isEmpty)).map Prod.fst

/-- One element of the waitList: `"A" depends on "B", "C"`. -/
def waitItem (p : String × List String) : String :=
  goQuote p.1 ++ " depends on " ++ joinSep ", " (p.2.map goQuote)

/-- The diagnostic built when no head node exists in a non-empty graph. -/
def cycleMsg (g : depGraph) : String :=
  "no config options exist with 0 dependencies - " ++ joinSep "; " (g.map waitItem)

/-- depGraph.GetHeadNodes: the head-node list together with the optional
error message. -/
def GetHeadNodes (g : depGraph) : List String × Option String :=
  if (heads g).isEmpty && !g.isEmpty then (heads g, some (cycleMsg g)) else (heads g, none)

/-- State-passing form of the GetHeadNodes call: the method body only reads
d.Dependencies, so the graph component of the outcome is the input graph. -/
def GetHeadNodesS (g : depGraph) : (List String × Option String) × depGraph :=
  (GetHeadNodes g, g)

/-- A template function of the recording table: takes the referenced name
and the variadic extra arguments, returns its string result while
threading the graph state. -/
abbrev TmplFunc := String → List String → depGraph → String × depGraph

/-- The addDepFunc closure of depGraph.funcMap: records
AddDep(parent, dep) and returns dep. -/
def addDepFunc (parent : String) : TmplFunc :=
  fun dep _ g => (dep, AddDep g parent dep)

/-- depGraph.funcMap: the five config functions, all bound to addDepFunc. -/
def funcMap (parent : String) : List (String × TmplFunc) :=
  [("ConfigOption", addDepFunc parent),
   ("ConfigOptionIndex", addDepFunc parent),
   ("ConfigOptionData", addDepFunc parent),
   ("ConfigOptionEquals", addDepFunc parent),
   ("ConfigOptionNotEquals", addDepFunc parent)]

/-- JSON values as produced and consumed by depGraph.Copy's
encode/decode round trip (an object of objects; other shapes decode to
failure). -/
inductive Jx where
  | obj : List (String × Jx) → Jx
  | str : String → Jx

/-- Encoding of one dependency set: an object whose keys are the members. -/
def encodeSet (ds : List String) : Jx := .obj (ds.map (fun d => (d, .obj [])))

/-- Encoding of d.Dependencies. -/
def encodeDeps (g : depGraph) : Jx := .obj (g.map (fun p => (p.1, encodeSet p.2)))

/-- Decoding of a dependency set (map[string]struct\x7b\x7d): the keys of
an object. -/
def decodeSet : Jx → Option (List String)
  | .obj fields => some (fields.map Prod.fst)
  | _ => none

def decodeEntries : List (String × Jx) → Option depGraph
  | [] => some []
  | (k, v) :: rest =>
    match decodeSet v, decodeEntries rest with
    | some ds, some g => some ((k, ds) :: g)
    | _, _ => none

def decodeDeps : Jx → Option depGraph
  | .obj fields => decodeEntries fields
  | _ => none

/-- depGraph.Copy: encode the dependency map and decode it back, giving a
structurally fresh graph (or an error). -/
def Copy (g : depGraph) : Option depGraph := decodeDeps (encodeDeps g)

/-- The graph mutations available to a client of depGraph. -/
inductive GraphOp where
  | addNode : String → GraphOp
  | addDep : String → String → GraphOp
  | resolveDep : String → GraphOp

def applyOp : GraphOp → depGraph → depGraph
  | .addNode s, g => AddNode g s
  | .addDep s d, g => AddDep g s d
  | .resolveDep r, g => ResolveDep g r

def applyOps (ops : List GraphOp) (g : depGraph) : depGraph :=
  ops.foldl (fun h op => applyOp op h) g

/-- A step on an (original, copy) pair: the Bool selects which component
the mutation is applied to. -/
def applyTagged (p : depGraph × depGraph) (t : Bool × GraphOp) : depGraph × depGraph :=
  if t.1 then (applyOp t.2 p.1, p.2) else (p.1, applyOp t.2 p.2)

def runTagged (p : depGraph × depGraph) (ts : List (Bool × GraphOp)) : depGraph × depGraph :=
  ts.foldl applyTagged p

def opsFor (b : Bool) (ts : List (Bool × GraphOp)) : List GraphOp :=
  (ts.filter (fun t => t.1 == b)).map Prod.snd

/-- Modelled from the spec: the resolution pass of §4.3 is not under src/;
one iteration calls ResolveDep for every head node returned by
GetHeadNodes. -/
def resolveAll (g : depGraph) (hs : List String) : depGraph := hs.foldl ResolveDep g

/-- Modelled from the spec: one iteration of the resolution loop (when
GetHeadNodes errors the head list is empty and the graph is untouched). -/
def stepResolve (g : depGraph) : depGraph := resolveAll g (GetHeadNodes g).1

/-- The graph before iteration k of the resolution loop. -/
def graphAt (g : depGraph) : Nat → depGraph
  | 0 => g
  | k+1 => stepResolve (graphAt g k)

/-- The batch of head nodes returned by GetHeadNodes in iteration k. -/
def batchAt (g : depGraph) (k : Nat) : List String := (GetHeadNodes (graphAt g k)).1

/-- Modelled from the spec: the resolution loop of §4.3, fuelled; returns
the sequence of resolved batches, or none on a cycle error (or fuel
exhaustion with a non-empty graph). -/
def runResolve : Nat → depGraph → Option (List (List String))
  | 0, g => if g.isEmpty then some [] else none
  | fuel+1, g =>
    if g.isEmpty then some []
    else if (GetHeadNodes g).2.isSome then none
    else (runResolve fuel (stepResolve g)).map (fun bs => (GetHeadNodes g).1 :: bs)

/-- The dependency (edge) relation of the graph. -/
def isDep (g : depGraph) (a b : String) : Prop := ∃ ds, (a, ds) ∈ g ∧ b ∈ ds

def NodupKeys (g : depGraph) : Prop := (keysOf g).Nodup

/-- Every dependency target is itself a node of the graph. -/
def ClosedDeps (g : depGraph) : Prop := ∀ p ∈ g, ∀ d ∈ p.2, d ∈ keysOf g

/-- Acyclicity, witnessed by a rank function strictly decreasing along
edges. -/
def Acyclic (g : depGraph) : Prop :=
  ∃ rank : String → Nat, ∀ a b, isDep g a b → rank b < rank a

/- Model of kotsadm/pkg/redact/redact.go (splitRedactors, getSlug and the
   migration branch of GetRedactInfo).  Serialized values in the configmap
   are modelled structurally: the combined document is the decoded list of
   (possibly nil) redactor specs, a per-rule value is the decoded
   RedactorMetadata record.  The timestamp fields (Created/Updated) are
   real-time outputs and are omitted; no claim mentions them. -/

/-- A v1beta1.Redact spec: its Name field plus an uninterpreted payload standing
for the remaining fields, which the migration copies verbatim. -/
structure Redact where
  name : String
  payload : String
deriving DecidableEq

/-- RedactorList without the two time.Now timestamps. -/
structure RedactorList where
  name : String
  slug : String
  enabled : Bool
  description : String
deriving DecidableEq

structure RedactorMetadata where
  metadata : RedactorList
  redact : Redact
deriving DecidableEq

/-- A value stored in the kotsadm-redact configmap: either the legacy
combined document (under the key "kotsadm-redact") or one serialized
RedactorMetadata entry. -/
inductive StoreVal where
  | combined : List (Option Redact) → StoreVal
  | entry : RedactorMetadata → StoreVal
deriving DecidableEq

abbrev Store := List (String × StoreVal)

/-- Association-list model of Go map assignment m[k] = v: replace the
binding if the key is present, otherwise append it. -/
def mapInsert : Store → String → StoreVal → Store
  | [], k, v => [(k, v)]
  | p :: rest, k, v => if p.1 == k then (k, v) :: rest else p :: mapInsert rest k v

/-- Association-list model of Go delete(m, k). -/
def mapDelete : Store → String → Store
  | [], _ => []
  | p :: rest, k => if p.1 == k then mapDelete rest k else p :: mapDelete rest k

/-- Association-list model of v, ok := m[k]. -/
def lookupKey : Store → String → Option StoreVal
  | [], _ => none
  | p :: rest, k => if p.1 == k then some p.2 else lookupKey rest k

/-- getSlug: replace spaces by hyphens, then strip every character not
matching Go regexp `[^\w\d-_]` (\w and \d are ASCII here). -/
def isSlugChar (c : Char) : Bool :=
  c.isAlphanum || c == '_' || c == '-'

def getSlug (name : String) : String :=
  String.mk ((name.data.map (fun c => if c == ' ' then '-' else c)).filter isSlugChar)

/-- The name given to the rule at index idx: its own Name if non-empty,
else "redactor-<idx>". -/
def derivedName (idx : Nat) (r : Redact) : String :=
  if r.name ≠ "" then r.name else "redactor-" ++ toString idx

/-- The body of the split loop for one (index, rule) pair: a nil rule is
skipped; otherwise the rule (with its name filled in) is stored under its
derived slug. -/
def splitStep (acc : Store) (idx : Nat) (r : Option Redact) : Store :=
  match r with
  | none => acc
  | some rule =>
    let rname := derivedName idx rule
    mapInsert acc (getSlug rname)
      (.entry ⟨⟨rname, getSlug rname, true, ""⟩, ⟨rname, rule.payload⟩⟩)

def splitGo (idx : Nat) (acc : Store) : List (Option Redact) → Store
  | [] => acc
  | r :: rest => splitGo (idx+1) (splitStep acc idx r) rest

/-- splitRedactors: walk the combined document's rules with their indices,
then delete the legacy "kotsadm-redact" key. -/
def splitRedactors (redactors : List (Option Redact)) (existingMap : Store) : Store :=
  mapDelete (splitGo 0 existingMap redactors) "kotsadm-redact"

/-- splitRedactors on the raw stored value: a value that does not decode
to a combined Redactor document is an error. -/
def splitRedactorsV (v : StoreVal) (existingMap : Store) : Option Store :=
  match v with
  | .combined rules => some (splitRedactors rules existingMap)
  | .entry _ => none

/-- json.Unmarshal of every stored value into RedactorMetadata, collecting
the metadata; a combined document under any key fails to parse. -/
def entriesOf : Store → Option (List RedactorList)
  | [] => some []
  | (_, .combined _) :: _ => none
  | (_, .entry e) :: rest => (entriesOf rest).map (fun l => e.metadata :: l)

/-- GetRedactInfo on the configmap data: when the legacy key is present
its value is split (and the updated map is written back); then every entry
is parsed and its metadata listed.  Returns the listed metadata together
with the store as left behind by the call. -/
def GetRedactInfo (m : Store) : Option (List RedactorList × Store) :=
  match lookupKey m "kotsadm-redact" with
  | some v =>
    match splitRedactorsV v m with
    | none => none
    | some newMap => (entriesOf newMap).map (fun l => (l, newMap))
  | none => (entriesOf m).map (fun l => (l, m))

/-- The derived slugs of the non-nil rules, indices starting at n. -/
def derivedSlugs (n : Nat) : List (Option Redact) → List String
  | [] => []
  | none :: rest => derivedSlugs (n+1) rest
  | some r :: rest => getSlug (derivedName n r) :: derivedSlugs (n+1) rest

/-- The per-rule record created by the migration for the rule at idx. -/
def splitEntry (idx : Nat) (r : Redact) : RedactorMetadata :=
  ⟨⟨derivedName idx r, getSlug (derivedName idx r), true, ""⟩, ⟨derivedName idx r, r.payload⟩⟩

example : getSlug "My Rule!" = "My-Rule" := by decide
example : derivedName 3 ⟨"", "p"⟩ = "redactor-3" := by decide
example : splitRedactors [some ⟨"a", "p"⟩, some ⟨"a", "q"⟩] [] =
    [("a", .entry ⟨⟨"a", "a", true, ""⟩, ⟨"a", "q"⟩⟩)] := by decide

example : AddDep [] "x" "x" = [("x", ["x"])] := by decide
example : GetHeadNodes [("x", ["x"])] =
    ([], some ("no config options exist with 0 dependencies - \"x\" depends on \"x\"")) := by
  decide
example : heads [("A", []), ("B", ["A"])] = ["A"] := by decide
example : Copy [("A", ["B", "C"]), ("B", [])] = some [("A", ["B", "C"]), ("B", [])] := by decide
example : runResolve 2 [("A", []), ("B", ["A"])] = some [["A"], ["B"]] := by decide

/- Basic lemmas about the graph operations. -/

theorem mem_keysOf {g : depGraph} {a : String} : a ∈ keysOf g ↔ ∃ ds, (a, ds) ∈ g := by
  constructor
  · intro h
    rcases List.mem_map.1 h with ⟨p, hp, rfl⟩
    exact ⟨p.2, hp⟩
  · rintro ⟨ds, h⟩
    exact List.mem_map.2 ⟨(a, ds), h, rfl⟩

theorem mem_heads {g : depGraph} {a : String} : a ∈ heads g ↔ (a, []) ∈ g := by
  constructor
  · intro h
    rcases List.mem_map.1 h with ⟨p, hp, rfl⟩
    rcases List.mem_filter.1 hp with ⟨hpg, hpe⟩
    have h2 : p.2 = [] := by simpa using hpe
    have : p = (p.1, ([] : List String)) := by
      cases p
      simpa using h2
    rw [this] at hpg
    exact hpg
  · intro h
    exact List.mem_map.2 ⟨(a, []), List.mem_filter.2 ⟨h, by simp⟩, rfl⟩

theorem heads_sublist_keys (g : depGraph) : (heads g).Sublist (keysOf g) :=
  List.Sublist.map Prod.fst (List.filter_sublist g)

theorem heads_eq_nil {g : depGraph} : heads g = [] ↔ ∀ p ∈ g, p.2 ≠ [] := by
  unfold heads
  rw [List.map_eq_nil_iff, List.filter_eq_nil_iff]
  constructor
  · intro h p hp
    have := h p hp
    simpa using this
  · intro h p hp
    simpa using h p hp

theorem GetHeadNodes_fst (g : depGraph) : (GetHeadNodes g).1 = heads g := by
  unfold GetHeadNodes
  split <;> rfl

theorem GetHeadNodes_snd (g : depGraph) :
    (GetHeadNodes g).2 = if heads g = [] ∧ g ≠ [] then some (cycleMsg g) else none := by
  unfold GetHeadNodes
  by_cases h : heads g = [] ∧ g ≠ []
  · have hb : ((heads g).isEmpty && !g.isEmpty) = true := by
      simp [List.isEmpty_iff, h.1, h.2]
    rw [if_pos hb, if_pos h]
  · have hb : ((heads g).isEmpty && !g.isEmpty) = false := by
      rcases not_and_or.1 h with h1 | h2
      · simp [List.isEmpty_iff, h1]
      · have : g = [] := not_not.1 h2
        simp [this]
    rw [if_neg (by simp [hb]), if_neg h]

theorem GetHeadNodes_snd_isSome {g : depGraph} :
    (GetHeadNodes g).2.isSome ↔ (heads g = [] ∧ g ≠ []) := by
  rw [GetHeadNodes_snd]
  by_cases h : heads g = [] ∧ g ≠ []
  · simp [h]
  · simp [h]

theorem GetHeadNodes_snd_none {g : depGraph} (h : heads g ≠ []) :
    (GetHeadNodes g).2 = none := by
  rw [GetHeadNodes_snd, if_neg]
  intro hc
  exact h hc.1

theorem joinSep_mem_split (sep : String) :
    ∀ (l : List String), ∀ a ∈ l, ∃ s t, joinSep sep l = s ++ a ++ t
  | [], a, ha => by simp at ha
  | [x], a, ha => by
    have : a = x := by simpa using ha
    subst this
    exact ⟨"", "", by simp [joinSep, String.append_empty, String.empty_append]⟩
  | x :: y :: xs, a, ha => by
    rcases List.mem_cons.1 ha with h | h
    · subst h
      refine ⟨"", sep ++ joinSep sep (y :: xs), ?_⟩
      simp [joinSep, String.empty_append, String.append_assoc]
    · rcases joinSep_mem_split sep (y :: xs) a h with ⟨s, t, hst⟩
      refine ⟨x ++ sep ++ s, t, ?_⟩
      simp [joinSep, hst, String.append_assoc]

theorem cycleMsg_split {g : depGraph} {p : String × List String} (hp : p ∈ g) :
    ∃ s t, cycleMsg g = s ++ waitItem p ++ t := by
  rcases joinSep_mem_split "; " (g.map waitItem) (waitItem p) (List.mem_map.2 ⟨p, hp, rfl⟩)
    with ⟨s, t, h⟩
  refine ⟨"no config options exist with 0 dependencies - " ++ s, t, ?_⟩
  rw [cycleMsg, h, String.append_assoc, String.append_assoc, String.append_assoc]

/- The effect of ResolveDep and of a whole batch of ResolveDep calls. -/

theorem resolveAll_nil (g : depGraph) : resolveAll g [] = g := rfl

theorem resolveAll_cons (g : depGraph) (h : String) (t : List String) :
    resolveAll g (h :: t) = resolveAll (ResolveDep g h) t := rfl

theorem resolveAll_eq : ∀ (hs : List String) (g : depGraph),
    resolveAll g hs = (g.filter (fun p => !(hs.contains p.1))).map
      (fun p => (p.1, p.2.filter (fun d => !(hs.contains d))))
  | [], g => by
    simp [resolveAll]
  | h :: t, g => by
    rw [resolveAll_cons, resolveAll_eq t (ResolveDep g h)]
    unfold ResolveDep
    rw [List.filter_map, List.map_map, List.filter_filter]
    have hfun : ∀ ds : List String,
        (ds.filter (fun d => !(d == h))).filter (fun d => !t.contains d) =
          ds.filter (fun d => !((h :: t).contains d)) := by
      intro ds
      rw [List.filter_filter]
      apply List.filter_congr
      intro d _
      rw [List.contains_cons]
      cases hc : d == h <;> cases ht : t.contains d <;> simp [hc, ht]
    have hfil : g.filter
        (fun a => ((fun p : String × List String => !t.contains p.1) ∘
          (fun p : String × List String => (p.1, p.2.filter (fun d => !(d == h))))) a
            && !(a.1 == h)) =
        g.filter (fun p => !((h :: t).contains p.1)) := by
      apply List.filter_congr
      intro p _
      show (!t.contains p.1 && !(p.1 == h)) = !((h :: t).contains p.1)
      rw [List.contains_cons]
      cases hc : p.1 == h <;> cases ht : t.contains p.1 <;> simp [hc, ht]
    rw [hfil]
    apply List.map_congr_left
    intro p _
    show (p.1, (p.2.filter (fun d => !(d == h))).filter (fun d => !t.contains d)) = _
    rw [hfun]

theorem mem_resolveAll {g : depGraph} {hs : List String} {x : String} {ds : List String} :
    (x, ds) ∈ resolveAll g hs ↔
      ∃ ds0, (x, ds0) ∈ g ∧ hs.contains x = false ∧
        ds = ds0.filter (fun d => !(hs.contains d)) := by
  rw [resolveAll_eq]
  constructor
  · intro h
    rcases List.mem_map.1 h with ⟨p, hp, he⟩
    rcases List.mem_filter.1 hp with ⟨hpg, hpb⟩
    have h1 : p.1 = x := congrArg Prod.fst he
    have h2 : ds = p.2.filter (fun d => !(hs.contains d)) := (congrArg Prod.snd he).symm
    refine ⟨p.2, ?_, ?_, h2⟩
    · rw [← h1]
      exact hpg
    · rw [← h1]
      simpa using hpb
  · rintro ⟨ds0, hg, hc, rfl⟩
    refine List.mem_map.2 ⟨(x, ds0), List.mem_filter.2 ⟨hg, by simpa using hc⟩, rfl⟩

theorem keysOf_resolveAll (g : depGraph) (hs : List String) :
    keysOf (resolveAll g hs) = (keysOf g).filter (fun k => !(hs.contains k)) := by
  rw [resolveAll_eq]
  unfold keysOf
  rw [List.map_map, List.filter_map]
  rfl

theorem nodupKeys_resolveAll {g : depGraph} (hs : List String) (h : NodupKeys g) :
    NodupKeys (resolveAll g hs) := by
  unfold NodupKeys
  rw [keysOf_resolveAll]
  exact List.Nodup.filter _ h

theorem length_resolveAll_lt {g : depGraph} {hs : List String}
    (h : ∃ p ∈ g, hs.contains p.1 = true) : (resolveAll g hs).length < g.length := by
  rw [resolveAll_eq, List.length_map]
  rw [List.length_filter_lt_length_iff_exists]
  rcases h with ⟨p, hp, hc⟩
  exact ⟨p, hp, by simpa using hc⟩

theorem stepResolve_eq (g : depGraph) : stepResolve g = resolveAll g (heads g) := by
  unfold stepResolve
  rw [GetHeadNodes_fst]

theorem nodupKeys_stepResolve {g : depGraph} (h : NodupKeys g) : NodupKeys (stepResolve g) := by
  rw [stepResolve_eq]
  exact nodupKeys_resolveAll _ h

theorem graphAt_succ_left (g : depGraph) : ∀ k, graphAt g (k + 1) = graphAt (stepResolve g) k
  | 0 => rfl
  | k + 1 => by
    show stepResolve (graphAt g (k + 1)) = stepResolve (graphAt (stepResolve g) k)
    rw [graphAt_succ_left g k]

theorem batchAt_succ_left (g : depGraph) (k : Nat) :
    batchAt g (k + 1) = batchAt (stepResolve g) k := by
  unfold batchAt
  rw [graphAt_succ_left]

/-- With duplicate-free keys (as for any Go map), a key has a unique
dependency set. -/
theorem nodupKeys_unique {g : depGraph} (h : NodupKeys g) {a : String} {ds1 ds2 : List String}
    (h1 : (a, ds1) ∈ g) (h2 : (a, ds2) ∈ g) : ds1 = ds2 := by
  induction g with
  | nil => simp at h1
  | cons p rest ih =>
    have hnd : (∀ x : List String, (p.1, x) ∉ rest) ∧ (List.map Prod.fst rest).Nodup := by
      unfold NodupKeys keysOf at h
      simpa using h
    rcases List.mem_cons.1 h1 with e1 | m1
    · rcases List.mem_cons.1 h2 with e2 | m2
      · exact congrArg Prod.snd (e1.trans e2.symm)
      · exfalso
        have hn := hnd.1 ds2
        rw [← e1] at hn
        exact hn m2
    · rcases List.mem_cons.1 h2 with e2 | m2
      · exfalso
        have hn := hnd.1 ds1
        rw [← e2] at hn
        exact hn m1
      · exact ih hnd.2 m1 m2

/- Progress and preservation for the resolution loop. -/

theorem heads_progress {g : depGraph} (hc : ClosedDeps g) (ha : Acyclic g)
    (hne : g ≠ []) : heads g ≠ [] := by
  rcases ha with ⟨rank, hrank⟩
  have aux : ∀ n, ∀ x, x ∈ keysOf g → rank x ≤ n → heads g ≠ [] := by
    intro n
    induction n with
    | zero =>
      intro x hx hr
      rcases mem_keysOf.1 hx with ⟨ds, hds⟩
      cases hd : ds with
      | nil =>
        intro hh
        rw [hd] at hds
        exact (List.ne_nil_of_mem (mem_heads.2 hds)) hh
      | cons d rest =>
        exfalso
        have hdep : isDep g x d := ⟨ds, hds, by rw [hd]; exact List.mem_cons_self d rest⟩
        have := hrank x d hdep
        omega
    | succ n ih =>
      intro x hx hr
      rcases mem_keysOf.1 hx with ⟨ds, hds⟩
      cases hd : ds with
      | nil =>
        intro hh
        rw [hd] at hds
        exact (List.ne_nil_of_mem (mem_heads.2 hds)) hh
      | cons d rest =>
        have hdmem : d ∈ ds := by rw [hd]; exact List.mem_cons_self d rest
        have hdep : isDep g x d := ⟨ds, hds, hdmem⟩
        have hdk : d ∈ keysOf g := hc (x, ds) hds d hdmem
        have := hrank x d hdep
        exact ih d hdk (by omega)
  cases g with
  | nil => exact absurd rfl hne
  | cons p rest =>
    exact aux (rank p.1) p.1 (mem_keysOf.2 ⟨p.2, List.mem_cons_self p rest⟩) (le_refl _)

theorem closedDeps_resolveAll {g : depGraph} (hs : List String) (hc : ClosedDeps g) :
    ClosedDeps (resolveAll g hs) := by
  intro p hp d hd
  cases p with
  | mk x ds =>
    rcases mem_resolveAll.1 hp with ⟨ds0, hg, hcx, hds⟩
    rw [hds] at hd
    rcases List.mem_filter.1 hd with ⟨hd0, hdb⟩
    have hdk : d ∈ keysOf g := hc (x, ds0) hg d hd0
    rw [keysOf_resolveAll]
    exact List.mem_filter.2 ⟨hdk, hdb⟩

theorem isDep_resolveAll {g : depGraph} {hs : List String} {a b : String}
    (h : isDep (resolveAll g hs) a b) : isDep g a b := by
  rcases h with ⟨ds, hds, hb⟩
  rcases mem_resolveAll.1 hds with ⟨ds0, hg, _, hf⟩
  rw [hf] at hb
  exact ⟨ds0, hg, (List.mem_filter.1 hb).1⟩

theorem acyclic_resolveAll {g : depGraph} (hs : List String) (ha : Acyclic g) :
    Acyclic (resolveAll g hs) := by
  rcases ha with ⟨rank, hrank⟩
  exact ⟨rank, fun a b h => hrank a b (isDep_resolveAll h)⟩

theorem closedDeps_stepResolve {g : depGraph} (hc : ClosedDeps g) :
    ClosedDeps (stepResolve g) := by
  rw [stepResolve_eq]
  exact closedDeps_resolveAll _ hc

theorem acyclic_stepResolve {g : depGraph} (ha : Acyclic g) : Acyclic (stepResolve g) := by
  rw [stepResolve_eq]
  exact acyclic_resolveAll _ ha

theorem length_stepResolve_lt {g : depGraph} (hh : heads g ≠ []) :
    (stepResolve g).length < g.length := by
  rw [stepResolve_eq]
  apply length_resolveAll_lt
  rcases List.exists_mem_of_ne_nil _ hh with ⟨x, hx⟩
  exact ⟨(x, []), mem_heads.1 hx, by simpa using hx⟩

theorem heads_nodup {g : depGraph} (h : NodupKeys g) : (heads g).Nodup :=
  List.Nodup.sublist (heads_sublist_keys g) h

theorem keysOf_stepResolve (g : depGraph) :
    keysOf (stepResolve g) = (keysOf g).filter (fun k => !((heads g).contains k)) := by
  rw [stepResolve_eq, keysOf_resolveAll]

theorem runResolve_spec : ∀ (fuel : Nat) (g : depGraph),
    g.length ≤ fuel → NodupKeys g → ClosedDeps g → Acyclic g →
    ∃ bs, runResolve fuel g = some bs ∧ bs.length ≤ g.length ∧
      (∀ x, x ∈ bs.flatten ↔ x ∈ keysOf g) ∧ bs.flatten.Nodup ∧
      graphAt g bs.length = [] ∧
      (∀ k, k < bs.length → (graphAt g (k + 1)).length < (graphAt g k).length) := by
  intro fuel
  induction fuel with
  | zero =>
    intro g hlen _ _ _
    have hg : g = [] := List.eq_nil_of_length_eq_zero (Nat.le_zero.1 hlen)
    subst hg
    exact ⟨[], rfl, by simp, by simp [keysOf], by simp, rfl, by simp⟩
  | succ fuel ih =>
    intro g hlen hn hc ha
    by_cases hg : g = []
    · subst hg
      refine ⟨[], ?_, by simp, by simp [keysOf], by simp, rfl, by simp⟩
      simp [runResolve]
    · have hheads : heads g ≠ [] := heads_progress hc ha hg
      have h1 : g.isEmpty = false := by simpa using hg
      have h2 : (GetHeadNodes g).2.isSome = false := by
        rw [GetHeadNodes_snd_none hheads]
        rfl
      have hlt : (stepResolve g).length < g.length := length_stepResolve_lt hheads
      rcases ih (stepResolve g) (by omega) (nodupKeys_stepResolve hn)
          (closedDeps_stepResolve hc) (acyclic_stepResolve ha)
        with ⟨bs2, hrun2, hblen2, hmem2, hnd2, hempty2, hshrink2⟩
      refine ⟨heads g :: bs2, ?_, ?_, ?_, ?_, ?_, ?_⟩
      · simp only [runResolve, h1, h2, Bool.false_eq_true, if_false, hrun2,
          GetHeadNodes_fst]
        rfl
      · simp only [List.length_cons]
        omega
      · intro x
        rw [List.flatten_cons, List.mem_append, hmem2, keysOf_stepResolve,
          List.mem_filter]
        constructor
        · rintro (hx | ⟨hx, _⟩)
          · exact (heads_sublist_keys g).subset hx
          · exact hx
        · intro hx
          by_cases hxh : x ∈ heads g
          · exact Or.inl hxh
          · exact Or.inr ⟨hx, by simpa using hxh⟩
      · rw [List.flatten_cons, List.nodup_append]
        refine ⟨heads_nodup hn, hnd2, ?_⟩
        intro x hx hx2
        rw [hmem2, keysOf_stepResolve, List.mem_filter] at hx2
        have := hx2.2
        simp at this
        exact this hx
      · simp only [List.length_cons]
        rw [graphAt_succ_left]
        exact hempty2
      · intro k hk
        cases k with
        | zero =>
          show (graphAt g 1).length < g.length
          rw [graphAt_succ_left]
          exact hlt
        | succ j =>
          rw [graphAt_succ_left g (j + 1), graphAt_succ_left g j]
          exact hshrink2 j (by simpa using hk)

/- An unresolved edge keeps its source out of the head batches until the
target has been resolved. -/

theorem batchAt_zero (g : depGraph) : batchAt g 0 = heads g := by
  unfold batchAt graphAt
  rw [GetHeadNodes_fst]

theorem edge_persists {g : depGraph} (hn : NodupKeys g) {A B : String} {ds : List String}
    (hA : (A, ds) ∈ g) (hB : B ∈ ds) (hBh : B ∉ heads g) :
    ∃ ds2, (A, ds2) ∈ stepResolve g ∧ B ∈ ds2 := by
  have hAh : A ∉ heads g := by
    intro hmem
    have hAe : (A, []) ∈ g := mem_heads.1 hmem
    have : ds = [] := nodupKeys_unique hn hA hAe
    rw [this] at hB
    simp at hB
  refine ⟨ds.filter (fun d => !((heads g).contains d)), ?_, ?_⟩
  · rw [stepResolve_eq]
    exact mem_resolveAll.2 ⟨ds, hA, by simpa using hAh, rfl⟩
  · exact List.mem_filter.2 ⟨hB, by simpa using hBh⟩

theorem dep_resolved_earlier : ∀ (i : Nat) (g : depGraph), NodupKeys g →
    ∀ (A B : String) (ds : List String), (A, ds) ∈ g → B ∈ ds →
    A ∈ batchAt g i → ∃ j, j < i ∧ B ∈ batchAt g j := by
  intro i
  induction i with
  | zero =>
    intro g hn A B ds hA hB hbatch
    rw [batchAt_zero] at hbatch
    have hAe : (A, []) ∈ g := mem_heads.1 hbatch
    have : ds = [] := nodupKeys_unique hn hA hAe
    rw [this] at hB
    simp at hB
  | succ i ih =>
    intro g hn A B ds hA hB hbatch
    by_cases hBh : B ∈ heads g
    · exact ⟨0, Nat.succ_pos i, by rw [batchAt_zero]; exact hBh⟩
    · rcases edge_persists hn hA hB hBh with ⟨ds2, hA2, hB2⟩
      rw [batchAt_succ_left] at hbatch
      rcases ih (stepResolve g) (nodupKeys_stepResolve hn) A B ds2 hA2 hB2 hbatch
        with ⟨j, hj, hBj⟩
      refine ⟨j + 1, by omega, ?_⟩
      rw [batchAt_succ_left]
      exact hBj

/- AddNode / AddDep lemmas. -/

theorem mem_keysOf_AddNode (g : depGraph) (s : String) : s ∈ keysOf (AddNode g s) := by
  unfold AddNode
  by_cases h : g.any (fun p => p.1 == s) = true
  · rw [if_pos h]
    rcases List.any_eq_true.1 h with ⟨p, hp, hps⟩
    have hs : p.1 = s := by simpa using hps
    rw [← hs]
    exact mem_keysOf.2 ⟨p.2, hp⟩
  · rw [if_neg h]
    unfold keysOf
    simp

theorem any_key_of_mem {g : depGraph} {s : String} (h : s ∈ keysOf g) :
    g.any (fun p => p.1 == s) = true := by
  rcases mem_keysOf.1 h with ⟨ds, hds⟩
  exact List.any_eq_true.2 ⟨(s, ds), hds, by simp⟩

theorem keysOf_AddDep (g : depGraph) (s d : String) :
    keysOf (AddDep g s d) = keysOf (AddNode g s) := by
  unfold AddDep keysOf
  rw [List.map_map]
  apply List.map_congr_left
  intro p _
  show (if p.1 == s then (p.1, addToSet p.2 d) else p).1 = p.1
  by_cases h : (p.1 == s) = true
  · rw [if_pos h]
  · rw [if_neg h]

theorem mem_addToSet_self (ds : List String) (d : String) : d ∈ addToSet ds d := by
  unfold addToSet
  by_cases h : ds.contains d = true
  · rw [if_pos h]
    simpa using h
  · rw [if_neg h]
    simp

theorem addToSet_of_mem {ds : List String} {d : String} (h : d ∈ ds) : addToSet ds d = ds := by
  unfold addToSet
  rw [if_pos (by simpa using h)]

theorem AddDep_idem (g : depGraph) (s d : String) :
    AddDep (AddDep g s d) s d = AddDep g s d := by
  have hkey : s ∈ keysOf (AddDep g s d) := by
    rw [keysOf_AddDep]
    exact mem_keysOf_AddNode g s
  have hAN : AddNode (AddDep g s d) s = AddDep g s d := by
    unfold AddNode
    rw [if_pos (any_key_of_mem hkey)]
  show (AddNode (AddDep g s d) s).map _ = AddDep g s d
  rw [hAN]
  have hid : ∀ p ∈ AddDep g s d,
      (if p.1 == s then (p.1, addToSet p.2 d) else p) = p := by
    intro p hp
    by_cases hps : (p.1 == s) = true
    · rw [if_pos hps]
      rcases List.mem_map.1 hp with ⟨q, _, hfq⟩
      by_cases hqs : (q.1 == s) = true
      · rw [if_pos hqs] at hfq
        have hp2 : p.2 = addToSet q.2 d := (congrArg Prod.snd hfq).symm
        have hd : d ∈ p.2 := by
          rw [hp2]
          exact mem_addToSet_self q.2 d
        rw [addToSet_of_mem hd]
      · exfalso
        rw [if_neg hqs] at hfq
        rw [hfq] at hqs
        exact hqs hps
    · rw [if_neg hps]
  calc (AddDep g s d).map (fun p => if p.1 == s then (p.1, addToSet p.2 d) else p)
      = (AddDep g s d).map (fun p => p) := List.map_congr_left hid
    _ = AddDep g s d := List.map_id' _

theorem AddDep_self_mem (g : depGraph) (s d : String) :
    ∃ ds, (s, ds) ∈ AddDep g s d ∧ d ∈ ds := by
  rcases mem_keysOf.1 (mem_keysOf_AddNode g s) with ⟨ds0, hds0⟩
  refine ⟨addToSet ds0 d, ?_, mem_addToSet_self ds0 d⟩
  refine List.mem_map.2 ⟨(s, ds0), hds0, ?_⟩
  show (if ((s, ds0).1 == s) = true then ((s, ds0).1, addToSet (s, ds0).2 d) else (s, ds0)) =
    (s, addToSet ds0 d)
  rw [if_pos (by simp)]

theorem AddDep_key_mem {g : depGraph} {x : String} {p : String × List String}
    (hp : p ∈ AddDep g x x) (hk : p.1 = x) : x ∈ p.2 := by
  rcases List.mem_map.1 hp with ⟨q, _, hfq⟩
  by_cases hqs : (q.1 == x) = true
  · rw [if_pos hqs] at hfq
    have hp2 : p.2 = addToSet q.2 x := (congrArg Prod.snd hfq).symm
    rw [hp2]
    exact mem_addToSet_self q.2 x
  · rw [if_neg hqs] at hfq
    rw [hfq, hk] at hqs
    simp at hqs

/- A self-edge never goes away: the node stays out of every batch. -/

theorem selfdep_invariant (g : depGraph) (x : String) :
    ∀ k, ∀ ds, (x, ds) ∈ graphAt (AddDep g x x) k → x ∈ ds := by
  intro k
  induction k with
  | zero =>
    intro ds hds
    exact AddDep_key_mem hds rfl
  | succ k ih =>
    intro ds hds
    have : graphAt (AddDep g x x) (k + 1) = stepResolve (graphAt (AddDep g x x) k) := rfl
    rw [this, stepResolve_eq] at hds
    rcases mem_resolveAll.1 hds with ⟨ds0, hg0, hcx, hf⟩
    have hx0 : x ∈ ds0 := ih ds0 hg0
    rw [hf]
    refine List.mem_filter.2 ⟨hx0, ?_⟩
    show (!(heads (graphAt (AddDep g x x) k)).contains x) = true
    rw [hcx]
    rfl

theorem selfdep_not_in_batch (g : depGraph) (x : String) :
    ∀ k, x ∉ batchAt (AddDep g x x) k := by
  intro k hmem
  unfold batchAt at hmem
  rw [GetHeadNodes_fst] at hmem
  have := selfdep_invariant g x k [] (mem_heads.1 hmem)
  simp at this

/- Copy: the encode/decode round trip restores the graph, and mutations of
independent components never interfere. -/

theorem decodeSet_encodeSet (ds : List String) : decodeSet (encodeSet ds) = some ds := by
  simp only [decodeSet, encodeSet, List.map_map]
  have h1 : List.map (Prod.fst ∘ fun d => (d, Jx.obj [])) ds = List.map (fun d => d) ds :=
    List.map_congr_left (fun d _ => rfl)
  rw [h1, List.map_id']

theorem decodeEntries_encode : ∀ g : depGraph,
    decodeEntries (g.map (fun p => (p.1, encodeSet p.2))) = some g
  | [] => rfl
  | p :: rest => by
    show decodeEntries ((p.1, encodeSet p.2) :: rest.map (fun q => (q.1, encodeSet q.2))) =
      some (p :: rest)
    rw [decodeEntries, decodeSet_encodeSet, decodeEntries_encode rest]

theorem Copy_roundtrip (g : depGraph) : Copy g = some g := by
  show decodeEntries (g.map (fun p => (p.1, encodeSet p.2))) = some g
  exact decodeEntries_encode g

theorem runTagged_eq : ∀ (ts : List (Bool × GraphOp)) (p : depGraph × depGraph),
    runTagged p ts = (applyOps (opsFor true ts) p.1, applyOps (opsFor false ts) p.2)
  | [], p => rfl
  | t :: ts, p => by
    show runTagged (applyTagged p t) ts = _
    rw [runTagged_eq ts (applyTagged p t)]
    cases t with
    | mk b op =>
      cases b
      · simp [applyTagged, opsFor, applyOps]
      · simp [applyTagged, opsFor, applyOps]

/- Store (association-list) primitives. -/

theorem lookup_mapInsert_self : ∀ (m : Store) (k : String) (v : StoreVal),
    lookupKey (mapInsert m k v) k = some v
  | [], k, v => by simp [mapInsert, lookupKey]
  | p :: rest, k, v => by
    unfold mapInsert
    by_cases h : (p.1 == k) = true
    · rw [if_pos h]
      simp [lookupKey]
    · rw [if_neg h]
      unfold lookupKey
      rw [if_neg h]
      exact lookup_mapInsert_self rest k v

theorem lookup_mapInsert_other : ∀ (m : Store) (k k2 : String) (v : StoreVal), k2 ≠ k →
    lookupKey (mapInsert m k v) k2 = lookupKey m k2
  | [], k, k2, v, hne => by
    simp [mapInsert, lookupKey]
    intro h
    exact hne h.symm
  | p :: rest, k, k2, v, hne => by
    unfold mapInsert
    by_cases h : (p.1 == k) = true
    · rw [if_pos h]
      unfold lookupKey
      have hp : p.1 = k := by simpa using h
      have h2 : (k == k2) = false := by
        simp
        intro he
        exact hne he.symm
      rw [h2, hp]
      simp [h2]
    · rw [if_neg h]
      unfold lookupKey
      by_cases hk : (p.1 == k2) = true
      · rw [if_pos hk, if_pos hk]
      · rw [if_neg hk, if_neg hk]
        exact lookup_mapInsert_other rest k k2 v hne

theorem lookup_mapDelete_self : ∀ (m : Store) (k : String),
    lookupKey (mapDelete m k) k = none
  | [], k => rfl
  | p :: rest, k => by
    unfold mapDelete
    by_cases h : (p.1 == k) = true
    · rw [if_pos h]
      exact lookup_mapDelete_self rest k
    · rw [if_neg h]
      unfold lookupKey
      rw [if_neg h]
      exact lookup_mapDelete_self rest k

theorem lookup_mapDelete_other : ∀ (m : Store) (k k2 : String), k2 ≠ k →
    lookupKey (mapDelete m k) k2 = lookupKey m k2
  | [], k, k2, hne => rfl
  | p :: rest, k, k2, hne => by
    unfold mapDelete
    by_cases h : (p.1 == k) = true
    · rw [if_pos h]
      have hp : p.1 = k := by simpa using h
      have h2 : (p.1 == k2) = false := by
        rw [hp]
        simp
        intro he
        exact hne he.symm
      rw [lookup_mapDelete_other rest k k2 hne]
      show lookupKey rest k2 = if (p.1 == k2) = true then some p.2 else lookupKey rest k2
      rw [if_neg (by simp [h2])]
    · rw [if_neg h]
      unfold lookupKey
      by_cases hk : (p.1 == k2) = true
      · rw [if_pos hk, if_pos hk]
      · rw [if_neg hk, if_neg hk]
        exact lookup_mapDelete_other rest k k2 hne

theorem mem_mapInsert : ∀ {m : Store} {k : String} {v : StoreVal} {p : String × StoreVal},
    p ∈ mapInsert m k v → p ∈ m ∨ p = (k, v)
  | [], k, v, p, h => by
    simp [mapInsert] at h
    exact Or.inr h
  | q :: rest, k, v, p, h => by
    unfold mapInsert at h
    by_cases hq : (q.1 == k) = true
    · rw [if_pos hq] at h
      rcases List.mem_cons.1 h with he | hm
      · exact Or.inr he
      · exact Or.inl (List.mem_cons.2 (Or.inr hm))
    · rw [if_neg hq] at h
      rcases List.mem_cons.1 h with he | hm
      · exact Or.inl (List.mem_cons.2 (Or.inl he))
      · rcases mem_mapInsert hm with h1 | h2
        · exact Or.inl (List.mem_cons.2 (Or.inr h1))
        · exact Or.inr h2

theorem mem_mapDelete : ∀ {m : Store} {k : String} {p : String × StoreVal},
    p ∈ mapDelete m k → p ∈ m
  | [], k, p, h => by simp [mapDelete] at h
  | q :: rest, k, p, h => by
    unfold mapDelete at h
    by_cases hq : (q.1 == k) = true
    · rw [if_pos hq] at h
      exact List.mem_cons.2 (Or.inr (mem_mapDelete h))
    · rw [if_neg hq] at h
      rcases List.mem_cons.1 h with he | hm
      · exact List.mem_cons.2 (Or.inl he)
      · exact List.mem_cons.2 (Or.inr (mem_mapDelete hm))

/- The split loop: keys outside the derived slugs are untouched, each
non-nil rule lands under its derived slug. -/

theorem lookup_splitGo_of_not_slug : ∀ (rules : List (Option Redact)) (n : Nat) (acc : Store)
    (k : String), k ∉ derivedSlugs n rules → lookupKey (splitGo n acc rules) k = lookupKey acc k
  | [], _, _, _, _ => rfl
  | none :: rest, n, acc, k, h =>
    lookup_splitGo_of_not_slug rest (n+1) acc k h
  | some r :: rest, n, acc, k, h => by
    have h1 : ¬(k = getSlug (derivedName n r) ∨ k ∈ derivedSlugs (n+1) rest) := by
      intro hc
      exact h (List.mem_cons.2 hc)
    show lookupKey (splitGo (n+1) (splitStep acc n (some r)) rest) k = lookupKey acc k
    rw [lookup_splitGo_of_not_slug rest (n+1) _ k (fun hm => h1 (Or.inr hm))]
    exact lookup_mapInsert_other acc _ k _ (fun he => h1 (Or.inl he))

theorem lookup_splitGo_hit : ∀ (rules : List (Option Redact)) (n : Nat) (acc : Store),
    (derivedSlugs n rules).Nodup →
    ∀ (i : Nat) (r : Redact), rules[i]? = some (some r) →
    lookupKey (splitGo n acc rules) (getSlug (derivedName (n + i) r)) =
      some (.entry (splitEntry (n + i) r))
  | [], _, _, _, i, r, hi => by simp at hi
  | o :: rest, n, acc, hnd, 0, r, hi => by
    have ho : o = some r := by simpa using hi
    subst ho
    rw [Nat.add_zero]
    have hnotin : getSlug (derivedName n r) ∉ derivedSlugs (n+1) rest := by
      rw [show derivedSlugs n (some r :: rest) =
        getSlug (derivedName n r) :: derivedSlugs (n+1) rest from rfl] at hnd
      exact (List.nodup_cons.1 hnd).1
    show lookupKey (splitGo (n+1) (splitStep acc n (some r)) rest) (getSlug (derivedName n r)) = _
    rw [lookup_splitGo_of_not_slug rest (n+1) _ _ hnotin]
    exact lookup_mapInsert_self acc _ _
  | o :: rest, n, acc, hnd, Nat.succ i, r, hi => by
    have hi2 : rest[i]? = some (some r) := by simpa using hi
    have hnd2 : (derivedSlugs (n+1) rest).Nodup := by
      cases o with
      | none => exact hnd
      | some r0 =>
        rw [show derivedSlugs n (some r0 :: rest) =
          getSlug (derivedName n r0) :: derivedSlugs (n+1) rest from rfl] at hnd
        exact (List.nodup_cons.1 hnd).2
    show lookupKey (splitGo (n+1) (splitStep acc n o) rest)
      (getSlug (derivedName (n + (i + 1)) r)) = some (.entry (splitEntry (n + (i + 1)) r))
    have harith : n + (i + 1) = (n + 1) + i := by omega
    rw [harith]
    exact lookup_splitGo_hit rest (n+1) _ hnd2 i r hi2

theorem slug_mem_derivedSlugs : ∀ (rules : List (Option Redact)) (n i : Nat) (r : Redact),
    rules[i]? = some (some r) → getSlug (derivedName (n + i) r) ∈ derivedSlugs n rules
  | [], _, i, r, hi => by simp at hi
  | o :: rest, n, 0, r, hi => by
    have ho : o = some r := by simpa using hi
    subst ho
    rw [Nat.add_zero]
    exact List.mem_cons_self _ _
  | o :: rest, n, Nat.succ i, r, hi => by
    have hi2 : rest[i]? = some (some r) := by simpa using hi
    have harith : n + (i + 1) = (n + 1) + i := by omega
    rw [harith]
    cases o with
    | none => exact slug_mem_derivedSlugs rest (n+1) i r hi2
    | some r0 =>
      show _ ∈ getSlug (derivedName n r0) :: derivedSlugs (n+1) rest
      exact List.mem_cons.2 (Or.inr (slug_mem_derivedSlugs rest (n+1) i r hi2))

theorem splitGo_vals : ∀ (rules : List (Option Redact)) (n : Nat) (acc : Store),
    (∀ p ∈ acc, p.1 = "kotsadm-redact" ∨ ∃ e, p.2 = StoreVal.entry e) →
    ∀ p ∈ splitGo n acc rules, p.1 = "kotsadm-redact" ∨ ∃ e, p.2 = StoreVal.entry e
  | [], _, _, hacc => hacc
  | o :: rest, n, acc, hacc => by
    apply splitGo_vals rest (n+1)
    intro p hp
    cases o with
    | none => exact hacc p hp
    | some r =>
      rcases mem_mapInsert hp with h1 | h2
      · exact hacc p h1
      · rw [h2]
        exact Or.inr ⟨_, rfl⟩

theorem entriesOf_total : ∀ (m : Store), (∀ p ∈ m, ∃ e, p.2 = StoreVal.entry e) →
    ∃ l, entriesOf m = some l
  | [], _ => ⟨[], rfl⟩
  | (k, v) :: rest, h => by
    rcases h (k, v) (List.mem_cons_self _ _) with ⟨e, he⟩
    cases v with
    | combined _ => simp at he
    | entry e2 =>
      rcases entriesOf_total rest (fun p hp => h p (List.mem_cons.2 (Or.inr hp))) with ⟨l, hl⟩
      refine ⟨e2.metadata :: l, ?_⟩
      show (entriesOf rest).map (fun l => e2.metadata :: l) = some (e2.metadata :: l)
      rw [hl]
      rfl

theorem mem_mapDelete_key : ∀ {m : Store} {k : String} {p : String × StoreVal},
    p ∈ mapDelete m k → p.1 ≠ k
  | [], k, p, h => by simp [mapDelete] at h
  | q :: rest, k, p, h => by
    unfold mapDelete at h
    by_cases hq : (q.1 == k) = true
    · rw [if_pos hq] at h
      exact mem_mapDelete_key h
    · rw [if_neg hq] at h
      rcases List.mem_cons.1 h with he | hm
      · subst he
        intro hc
        exact hq (by simp [hc])
      · exact mem_mapDelete_key hm

/- =================== Claim theorems =================== -/

/-- C1: GetHeadNodes returns exactly the nodes whose dependency set is
empty; it errors iff the graph is non-empty and no node has an empty
dependency set; the error message contains, for every remaining node, the
item quoting its name and the quoted names it still depends on; and the
call leaves the graph unchanged. -/
theorem depgraph_GetHeadNodes_spec (g : depGraph) :
    (∀ x, x ∈ (GetHeadNodes g).1 ↔ (x, ([] : List String)) ∈ g)
    ∧ ((GetHeadNodes g).2.isSome ↔ (g ≠ [] ∧ ∀ p ∈ g, p.2 ≠ []))
    ∧ (∀ msg, (GetHeadNodes g).2 = some msg →
        ∀ p ∈ g, ∃ s t, msg = s ++ waitItem p ++ t)
    ∧ (GetHeadNodesS g).2 = g := by
  refine ⟨?_, ?_, ?_, rfl⟩
  · intro x
    rw [GetHeadNodes_fst]
    exact mem_heads
  · rw [GetHeadNodes_snd_isSome, heads_eq_nil]
    tauto
  · intro msg hmsg p hp
    rw [GetHeadNodes_snd] at hmsg
    by_cases hc : heads g = [] ∧ g ≠ []
    · rw [if_pos hc] at hmsg
      have he : cycleMsg g = msg := Option.some.inj hmsg
      rw [← he]
      exact cycleMsg_split hp
    · rw [if_neg hc] at hmsg
      exact absurd hmsg (by simp)

theorem depgraph_GetHeadNodes_spec_witness :
    (GetHeadNodes [("A", ["B"])]).2.isSome :=
  (depgraph_GetHeadNodes_spec _).2.1.mpr ⟨by decide, by decide⟩

/-- C2: if the graph has an edge from A to B, then A only appears in a
batch of head nodes strictly after the batch in which B was resolved —
never earlier and never in the same batch. -/
theorem depgraph_dep_resolves_strictly_earlier (g : depGraph) (hn : NodupKeys g)
    (A B : String) (ds : List String) (hA : (A, ds) ∈ g) (hB : B ∈ ds)
    (i : Nat) (hi : A ∈ batchAt g i) : ∃ j, j < i ∧ B ∈ batchAt g j :=
  dep_resolved_earlier i g hn A B ds hA hB hi

theorem depgraph_dep_resolves_strictly_earlier_witness :
    ∃ j, j < 1 ∧ "B" ∈ batchAt [("A", ["B"]), ("B", [])] j :=
  depgraph_dep_resolves_strictly_earlier [("A", ["B"]), ("B", [])]
    (by show (keysOf [("A", ["B"]), ("B", [])]).Nodup
        decide)
    "A" "B" ["B"] (by decide) (by decide) 1 (by decide)

/-- C3: ResolveDep X removes X as a node, removes X from every node's
dependency set, and a node whose only dependency was X becomes a head node
immediately afterwards. -/
theorem depgraph_ResolveDep_removes_everywhere (g : depGraph) (X : String) :
    X ∉ keysOf (ResolveDep g X)
    ∧ (∀ p ∈ ResolveDep g X, X ∉ p.2)
    ∧ (∀ Y, (Y, [X]) ∈ g → Y ≠ X → Y ∈ heads (ResolveDep g X)) := by
  refine ⟨?_, ?_, ?_⟩
  · intro hmem
    rcases mem_keysOf.1 hmem with ⟨ds, hds⟩
    unfold ResolveDep at hds
    rcases List.mem_map.1 hds with ⟨q, hq, hfq⟩
    rcases List.mem_filter.1 hq with ⟨_, hqb⟩
    have h1 : q.1 = X := congrArg Prod.fst hfq
    rw [h1] at hqb
    simp at hqb
  · intro p hp hX
    unfold ResolveDep at hp
    rcases List.mem_map.1 hp with ⟨q, _, hfq⟩
    have h2 : p.2 = q.2.filter (fun d => !(d == X)) := (congrArg Prod.snd hfq).symm
    rw [h2] at hX
    rcases List.mem_filter.1 hX with ⟨_, hb⟩
    simp at hb
  · intro Y hY hne
    apply mem_heads.2
    unfold ResolveDep
    refine List.mem_map.2 ⟨(Y, [X]), List.mem_filter.2 ⟨hY, by simp [hne]⟩, ?_⟩
    show (Y, [X].filter (fun d => !(d == X))) = (Y, [])
    simp

theorem depgraph_ResolveDep_removes_everywhere_witness :
    "Y" ∈ heads (ResolveDep [("Y", ["X"])] "X") :=
  (depgraph_ResolveDep_removes_everywhere [("Y", ["X"])] "X").2.2 "Y" (by decide) (by decide)

/-- C4 counterexample: a one-node graph whose single dependency names a
node that was never added is acyclic, yet the resolution loop fails at
once with the no-head-nodes error and never empties the graph. -/
theorem depgraph_acyclic_dangling_cex :
    Acyclic [("A", ["B"])] ∧ runResolve 1 [("A", ["B"])] = none ∧
    ∀ k, graphAt [("A", ["B"])] k = [("A", ["B"])] := by
  refine ⟨⟨fun s => if s = "A" then 1 else 0, ?_⟩, by decide, ?_⟩
  · intro a b hdep
    rcases hdep with ⟨ds, hds, hb⟩
    have h1 : a = "A" ∧ ds = ["B"] := by simpa using hds
    have h2 : b = "B" := by
      rw [h1.2] at hb
      simpa using hb
    rw [h1.1, h2]
    simp
  · intro k
    induction k with
    | zero => rfl
    | succ k ih =>
      show stepResolve (graphAt [("A", ["B"])] k) = [("A", ["B"])]
      rw [ih]
      decide

/-- C4 (amended): for every graph with duplicate-free keys whose
dependencies all name existing nodes and which is acyclic, the resolution
loop strictly shrinks the graph each iteration and empties it within
length-many iterations, resolving every node exactly once. -/
theorem depgraph_resolution_terminates (g : depGraph) (hn : NodupKeys g)
    (hc : ClosedDeps g) (ha : Acyclic g) :
    ∃ bs, runResolve g.length g = some bs ∧ bs.length ≤ g.length ∧
      (∀ x, x ∈ bs.flatten ↔ x ∈ keysOf g) ∧ bs.flatten.Nodup ∧
      graphAt g bs.length = [] ∧
      (∀ k, k < bs.length → (graphAt g (k + 1)).length < (graphAt g k).length) :=
  runResolve_spec g.length g (le_refl _) hn hc ha

theorem depgraph_resolution_terminates_witness :
    ∃ bs, runResolve 2 [("A", []), ("B", ["A"])] = some bs ∧
      graphAt [("A", []), ("B", ["A"])] bs.length = [] := by
  rcases depgraph_resolution_terminates [("A", []), ("B", ["A"])]
      (by show (keysOf [("A", []), ("B", ["A"])]).Nodup
          decide)
      (by show ∀ p ∈ [("A", ([] : List String)), ("B", ["A"])], ∀ d ∈ p.2,
            d ∈ keysOf [("A", []), ("B", ["A"])]
          decide)
      ⟨fun s => if s = "B" then 1 else 0, by
        intro a b hdep
        rcases hdep with ⟨ds, hds, hb⟩
        rcases (by simpa using hds : a = "A" ∧ ds = [] ∨ a = "B" ∧ ds = ["A"]) with h | h
        · rw [h.2] at hb
          simp at hb
        · have hb2 : b = "A" := by
            rw [h.2] at hb
            simpa using hb
          rw [h.1, hb2]
          simp⟩
    with ⟨bs, h1, _, _, _, h5, _⟩
  exact ⟨bs, h1, h5⟩

/-- C5: every function in the recording table bound to an item name is the
addDepFunc closure: it records AddDep(parent, dep) as its only effect and
returns the referenced name unchanged, for any extra arguments. -/
theorem depgraph_funcMap_records_dep (parent fname : String) (f : TmplFunc)
    (hf : (fname, f) ∈ funcMap parent) (dep : String) (extra : List String)
    (g : depGraph) : f dep extra g = (dep, AddDep g parent dep) := by
  have hfe : f = addDepFunc parent := by
    simp only [funcMap, List.mem_cons] at hf
    rcases hf with h | h | h | h | h | h
    · exact congrArg Prod.snd h
    · exact congrArg Prod.snd h
    · exact congrArg Prod.snd h
    · exact congrArg Prod.snd h
    · exact congrArg Prod.snd h
    · simp at h
  rw [hfe]
  rfl

theorem depgraph_funcMap_records_dep_witness :
    addDepFunc "item" "dep" ["x", "y"] [] = ("dep", AddDep [] "item" "dep") :=
  depgraph_funcMap_records_dep "item" "ConfigOption" (addDepFunc "item")
    (List.mem_cons_self _ _) "dep" ["x", "y"] []

/-- C6: Copy returns a graph equal in nodes and edges to the original, and
in the pair state (original, copy) any interleaving of mutations acts
componentwise: operations applied to one component never change the
other. -/
theorem depgraph_Copy_independent (g : depGraph) :
    Copy g = some g ∧
    ∀ ts : List (Bool × GraphOp),
      (runTagged (g, g) ts).1 = applyOps (opsFor true ts) g ∧
      (runTagged (g, g) ts).2 = applyOps (opsFor false ts) g := by
  refine ⟨Copy_roundtrip g, fun ts => ⟨?_, ?_⟩⟩
  · rw [runTagged_eq]
  · rw [runTagged_eq]

/-- C7: AddDep is idempotent — a repeated AddDep with the same pair leaves
the graph, and hence the GetHeadNodes outcome, unchanged. -/
theorem depgraph_AddDep_idempotent (g : depGraph) (s d : String) :
    AddDep (AddDep g s d) s d = AddDep g s d ∧
    GetHeadNodes (AddDep (AddDep g s d) s d) = GetHeadNodes (AddDep g s d) := by
  refine ⟨AddDep_idem g s d, ?_⟩
  rw [AddDep_idem g s d]

/-- C9: a self-dependency is not special-cased: after AddDep x x the node
x has a dependency set containing x, x never appears in any head batch,
and on the graph whose only node is x with that self-edge GetHeadNodes
returns the cycle error quoting x as depending on x. -/
theorem depgraph_selfdep_never_resolves (g : depGraph) (x : String) :
    (∃ ds, (x, ds) ∈ AddDep g x x ∧ x ∈ ds) ∧
    (∀ k, x ∉ batchAt (AddDep g x x) k) ∧
    GetHeadNodes (AddDep ([] : depGraph) x x) =
      ([], some ("no config options exist with 0 dependencies - " ++
        (goQuote x ++ " depends on " ++ goQuote x))) := by
  refine ⟨AddDep_self_mem g x x, selfdep_not_in_batch g x, ?_⟩
  have h1 : AddDep ([] : depGraph) x x = [(x, [x])] := by
    simp [AddDep, AddNode, addToSet]
  rw [h1]
  rfl

theorem depgraph_selfdep_never_resolves_witness :
    "x" ∉ batchAt (AddDep [] "x" "x") 0 :=
  (depgraph_selfdep_never_resolves [] "x").2.1 0

/-- C8 counterexample: a store holding only the legacy key with two
non-nil rules of the same name yields a single entry after the read — not
one entry per non-nil rule — because both rules derive the slug "a". -/
theorem redact_migration_collision_cex :
    GetRedactInfo [("kotsadm-redact", StoreVal.combined [some ⟨"a", "p"⟩, some ⟨"a", "q"⟩])] =
      some ([⟨"a", "a", true, ""⟩],
        [("a", StoreVal.entry ⟨⟨"a", "a", true, ""⟩, ⟨"a", "q"⟩⟩)]) ∧
    [some (⟨"a", "p"⟩ : Redact), some ⟨"a", "q"⟩].length = 2 := by
  constructor
  · decide
  · rfl

/-- C8 (amended): when the store holds the legacy combined key, every
other stored value parses as an entry, and the derived slugs of the
non-nil rules are pairwise distinct and differ from the legacy key name,
then GetRedactInfo splits the document into one enabled entry per non-nil
rule under its derived slug (rule name, or redactor-index when unnamed),
removes the legacy key, and a second read migrates nothing and leaves the
store unchanged. -/
theorem redact_migration_split (m : Store) (rules : List (Option Redact))
    (hleg : lookupKey m "kotsadm-redact" = some (.combined rules))
    (hwf : ∀ p ∈ m, p.1 = "kotsadm-redact" ∨ ∃ e, p.2 = StoreVal.entry e)
    (hnd : (derivedSlugs 0 rules).Nodup)
    (hnl : "kotsadm-redact" ∉ derivedSlugs 0 rules) :
    ∃ l, GetRedactInfo m = some (l, splitRedactors rules m)
      ∧ lookupKey (splitRedactors rules m) "kotsadm-redact" = none
      ∧ (∀ i r, rules[i]? = some (some r) →
          lookupKey (splitRedactors rules m) (getSlug (derivedName i r)) =
            some (.entry (splitEntry i r)))
      ∧ GetRedactInfo (splitRedactors rules m) = some (l, splitRedactors rules m) := by
  have hvals : ∀ p ∈ splitRedactors rules m, ∃ e, p.2 = StoreVal.entry e := by
    intro p hp
    unfold splitRedactors at hp
    have h1 : p ∈ splitGo 0 m rules := mem_mapDelete hp
    have h2 : p.1 ≠ "kotsadm-redact" := mem_mapDelete_key hp
    rcases splitGo_vals rules 0 m hwf p h1 with hk | he
    · exact absurd hk h2
    · exact he
  rcases entriesOf_total _ hvals with ⟨l, hl⟩
  have hlegN : lookupKey (splitRedactors rules m) "kotsadm-redact" = none := by
    unfold splitRedactors
    exact lookup_mapDelete_self _ _
  refine ⟨l, ?_, hlegN, ?_, ?_⟩
  · unfold GetRedactInfo
    rw [hleg]
    show (entriesOf (splitRedactors rules m)).map (fun l => (l, splitRedactors rules m)) = _
    rw [hl]
    rfl
  · intro i r hi
    have hslug : getSlug (derivedName i r) ∈ derivedSlugs 0 rules := by
      have hm := slug_mem_derivedSlugs rules 0 i r hi
      rwa [Nat.zero_add] at hm
    have hne : getSlug (derivedName i r) ≠ "kotsadm-redact" := by
      intro he
      rw [he] at hslug
      exact hnl hslug
    unfold splitRedactors
    rw [lookup_mapDelete_other _ _ _ hne]
    have hh := lookup_splitGo_hit rules 0 m hnd i r hi
    rwa [Nat.zero_add] at hh
  · unfold GetRedactInfo
    rw [hlegN, hl]
    rfl

theorem redact_migration_split_witness :
    lookupKey (splitRedactors [some ⟨"a", "p"⟩]
      [("kotsadm-redact", StoreVal.combined [some ⟨"a", "p"⟩])]) "kotsadm-redact" = none := by
  rcases redact_migration_split
      [("kotsadm-redact", StoreVal.combined [some ⟨"a", "p"⟩])] [some ⟨"a", "p"⟩]
      (by decide)
      (by intro p hp
          rw [List.mem_singleton] at hp
          subst hp
          exact Or.inl rfl)
      (by show (derivedSlugs 0 [some ⟨"a", "p"⟩]).Nodup
          decide)
      (by decide)
    with ⟨l, _, h2, _, _⟩
  exact h2

/-- C10: when two non-nil rules derive the same slug, the later rule's
entry overwrites the earlier one's in the returned map without any error:
on a two-rule document the result is the single entry of the second rule,
fewer entries than rules. -/
theorem redact_slug_collision_overwrites (r1 r2 : Redact)
    (hs : getSlug (derivedName 0 r1) = getSlug (derivedName 1 r2))
    (hl : getSlug (derivedName 1 r2) ≠ "kotsadm-redact") :
    splitRedactors [some r1, some r2] [] =
      [(getSlug (derivedName 1 r2), .entry (splitEntry 1 r2))] ∧
    (splitRedactors [some r1, some r2] []).length < [some r1, some r2].length := by
  have e2 : splitStep [(getSlug (derivedName 0 r1), .entry (splitEntry 0 r1))] 1 (some r2)
      = [(getSlug (derivedName 1 r2), .entry (splitEntry 1 r2))] := by
    show mapInsert [(getSlug (derivedName 0 r1), .entry (splitEntry 0 r1))]
      (getSlug (derivedName 1 r2)) (.entry (splitEntry 1 r2)) = _
    unfold mapInsert
    rw [if_pos (by simp [hs])]
  have hmain : splitRedactors [some r1, some r2] [] =
      [(getSlug (derivedName 1 r2), .entry (splitEntry 1 r2))] := by
    calc splitRedactors [some r1, some r2] []
        = mapDelete (splitStep (splitStep [] 0 (some r1)) 1 (some r2)) "kotsadm-redact" := rfl
      _ = mapDelete [(getSlug (derivedName 1 r2), .entry (splitEntry 1 r2))] "kotsadm-redact" := by
          rw [show splitStep ([] : Store) 0 (some r1) =
            [(getSlug (derivedName 0 r1), .entry (splitEntry 0 r1))] from rfl, e2]
      _ = [(getSlug (derivedName 1 r2), .entry (splitEntry 1 r2))] := by
          unfold mapDelete
          rw [if_neg (by simp [hl])]
          rfl
  refine ⟨hmain, ?_⟩
  rw [hmain]
  simp

theorem redact_slug_collision_overwrites_witness :
    splitRedactors [some ⟨"My Rule", "p"⟩, some ⟨"My-Rule", "q"⟩] [] =
      [("My-Rule", StoreVal.entry ⟨⟨"My-Rule", "My-Rule", true, ""⟩, ⟨"My-Rule", "q"⟩⟩)] := by
  have h := (redact_slug_collision_overwrites ⟨"My Rule", "p"⟩ ⟨"My-Rule", "q"⟩
    (by decide) (by decide)).1
  rw [h]
  decide
